import Mathlib

/-!
Verification of the combination-lock word matcher
(`Activision Programming Test.cpp`).

The program reads a lock description (a number of wheels, each wheel
carrying a set of letters) and a dictionary of words, and counts, for
every word, the number of contiguous alignments of the word against the
wheels at which every character of the word appears on the wheel it
covers.

Embedding conventions:
* C++ `char` values are modelled as `Nat` byte values (ASCII); a word or
  a line of the input is a `List Nat`.
* A wheel (`bool[26]`) is a `List Bool` of length 26; the wheel grid
  (`bool**`) is a `List (List Bool)`.
* `unsigned int` arithmetic is modelled on `Nat` with explicit `% 2^32`
  where wraparound matters (`space = wheelCount - wordLength`).
* Out-of-bounds reads (undefined behaviour in the C++) are totalised
  with default values; the safety claim shows all reads performed under
  the documented preconditions are in bounds.
* `throw` of an error message is modelled with `Except String`.
-/

/-- The constant `#define ALPHABETLENGTH 26`. -/
def ALPHABETLENGTH : Nat := 26

/-- The constant `#define MAXWORDLENGTH 255`. -/
def MAXWORDLENGTH : Nat := 255

/-- The modulus of C++ `unsigned int` (32-bit). -/
def U32 : Nat := 4294967296

/-- The conversion `constexpr int alphabetindex(char letter) { return letter - 'a'; }`
 — integer subtraction, so the result can be negative for bytes below 97. -/
def alphabetindex (letter : Nat) : Int := (letter : Int) - 97

/-- C `isalpha` on ASCII: true exactly on bytes 65..90 (A-Z) and 97..122 (a-z). -/
def isalpha (c : Nat) : Bool := (65 ≤ c && c ≤ 90) || (97 ≤ c && c ≤ 122)

/-- C `tolower` on ASCII: maps A-Z to a-z, leaves everything else alone. -/
def tolower (c : Nat) : Nat := if 65 ≤ c && c ≤ 90 then c + 32 else c

/-- ASCII uppercasing (the spec's `uppercase`): maps a-z to A-Z,
leaves everything else alone. -/
def toupper (c : Nat) : Nat := if 97 ≤ c && c ≤ 122 then c - 32 else c

/-- Read `wheel[idx]` for an `int` index: the bit when the index is in
bounds, a default `false` otherwise (the C++ read would be undefined
behaviour out of bounds; the safety theorem shows in-bounds access
under the documented preconditions). -/
def wheelbit (wheel : List Bool) (idx : Int) : Bool :=
  if 0 ≤ idx then wheel.getD idx.toNat false else false

/-- The slack `uint space{ wheelCount - wordLength }` — `unsigned int` subtraction,
which wraps modulo `2^32`. -/
def spaceOf (wheelCount wordLength : Nat) : Nat :=
  (wheelCount + U32 - wordLength) % U32

/-- The inner loop of `TestWord` at starting offset `i`: true iff every
character position `j < wordLength` finds `word[j]` on wheel `i + j`.
Reading `word` past its length yields the terminator byte 0. -/
def TestWordMatch (wheels : List (List Bool)) (word : List Nat)
    (wordLength i : Nat) : Bool :=
  (List.range wordLength).all fun j =>
    wheelbit (wheels.getD (i + j) []) (alphabetindex (word.getD j 0))

/-- The function `int TestWord(bool** wheels, const char* word, const uint wordLength,
const uint wheelCount)`: counts the starting offsets `i ∈ 0..space`
whose inner loop fully matches. -/
def TestWord (wheels : List (List Bool)) (word : List Nat)
    (wordLength wheelCount : Nat) : Nat :=
  ((List.range (spaceOf wheelCount wordLength + 1)).filter
    (fun i => TestWordMatch wheels word wordLength i)).length

/-- The number of matching alignments as the spec words it: the number
of starting offsets `s` in `0..wheelCount - L` (inclusive) such that for
every character position `j` in `0..L-1`, wheel `s+j`'s membership set
contains `word[j]`. -/
def MatchSpecCount (wheels : List (List Bool)) (word : List Nat)
    (wheelCount : Nat) : Nat :=
  ((Finset.range (wheelCount - word.length + 1)).filter
    (fun s => ∀ j < word.length,
      wheelbit (wheels.getD (s + j) []) (alphabetindex (word.getD j 0)) = true)).card

-- Basic arithmetic facts about `spaceOf`.

theorem spaceOf_eq_sub (wheelCount wordLength : Nat)
    (hle : wordLength ≤ wheelCount) (hW : wheelCount < U32) :
    spaceOf wheelCount wordLength = wheelCount - wordLength := by
  unfold spaceOf
  have h1 : wheelCount + U32 - wordLength = (wheelCount - wordLength) + U32 := by
    omega
  rw [h1, Nat.add_mod_right]
  exact Nat.mod_eq_of_lt (by omega)

theorem length_filter_range_eq_card (n : Nat) (p : Nat → Bool) :
    ((List.range n).filter p).length
      = ((Finset.range n).filter (fun i => p i = true)).card := by
  induction n with
  | zero => simp
  | succ n ih =>
    rw [List.range_succ, Finset.range_succ, List.filter_append,
      List.length_append, Finset.filter_insert]
    by_cases h : p n = true
    · rw [if_pos h, Finset.card_insert_of_not_mem (by simp)]
      simp [h, ih]
    · rw [if_neg h]
      simp [h, ih]

theorem TestWordMatch_iff (wheels : List (List Bool)) (word : List Nat)
    (wordLength i : Nat) :
    TestWordMatch wheels word wordLength i = true ↔
      ∀ j < wordLength,
        wheelbit (wheels.getD (i + j) []) (alphabetindex (word.getD j 0)) = true := by
  unfold TestWordMatch
  rw [List.all_eq_true]
  constructor
  · intro h j hj
    exact h j (List.mem_range.mpr hj)
  · intro h j hj
    exact h j (List.mem_range.mp hj)

/-- C1: For every lock of W wheels and every lowercase alphabetic word of
length L with 0 < L ≤ W, `TestWord` returns exactly the number of starting
offsets `s` in `0..W-L` (inclusive) such that for every character position
`j` in `0..L-1`, wheel `s+j`'s membership set contains `word[j]`; all
matching offsets are counted, not just the first. -/
theorem TestWord_counts_all_offsets (wheels : List (List Bool)) (word : List Nat)
    (wordLength wheelCount : Nat)
    (hlen : wordLength = word.length)
    (hlower : ∀ c ∈ word, 97 ≤ c ∧ c ≤ 122)
    (hpos : 0 < wordLength) (hle : wordLength ≤ wheelCount)
    (hW : wheelCount < U32) :
    TestWord wheels word wordLength wheelCount = MatchSpecCount wheels word wheelCount := by
  unfold TestWord MatchSpecCount
  rw [spaceOf_eq_sub wheelCount wordLength hle hW,
    length_filter_range_eq_card, hlen]
  congr 1
  apply Finset.filter_congr
  intro s _
  exact TestWordMatch_iff wheels word word.length s

/-- Witness for C1 at a concrete lock and word: three wheels each holding
letters a,b and the word "ab" (bytes 97,98), which matches at both offsets. -/
theorem TestWord_counts_all_offsets_witness :
    TestWord [[true, true], [true, true], [true, true]] [97, 98] 2 3
      = MatchSpecCount [[true, true], [true, true], [true, true]] [97, 98] 3 := by
  exact TestWord_counts_all_offsets _ _ 2 3 (by decide) (by decide) (by decide)
    (by decide) (by decide)

/-- C5: For a word whose length equals the wheel count, `space == 0`, so
exactly one offset is tested and the match count is 0 or 1. -/
theorem exact_length_single_offset (wheels : List (List Bool)) (word : List Nat)
    (wordLength wheelCount : Nat)
    (heq : wordLength = wheelCount) (hW : wheelCount < U32) :
    spaceOf wheelCount wordLength = 0 ∧
      (TestWord wheels word wordLength wheelCount = 0 ∨
        TestWord wheels word wordLength wheelCount = 1) := by
  have hsp : spaceOf wheelCount wordLength = 0 := by
    rw [spaceOf_eq_sub wheelCount wordLength (le_of_eq heq) hW]
    omega
  refine ⟨hsp, ?_⟩
  unfold TestWord
  rw [hsp]
  by_cases h : TestWordMatch wheels word wordLength 0 = true
  · right
    simp [List.range, List.range.loop, List.filter, h]
  · left
    simp only [Bool.not_eq_true] at h
    simp [List.range, List.range.loop, List.filter, h]

/-- Witness for C5: one wheel holding just the letter a, word "a". -/
theorem exact_length_single_offset_witness :
    spaceOf 1 1 = 0 ∧
      (TestWord [[true]] [97] 1 1 = 0 ∨ TestWord [[true]] [97] 1 1 = 1) :=
  exact_length_single_offset [[true]] [97] 1 1 (by decide) (by decide)

/-- C10: under the documented preconditions (lowercase alphabetic word,
length L ≤ W < 2^32) every membership lookup performed by `TestWord` is in
bounds: the wheel index `i + j` is strictly below the wheel count and the
letter index `alphabetindex word[j]` lies in `0..25`. -/
theorem TestWord_accesses_in_bounds (word : List Nat) (wordLength wheelCount : Nat)
    (hlen : wordLength = word.length)
    (hlower : ∀ c ∈ word, 97 ≤ c ∧ c ≤ 122)
    (hle : wordLength ≤ wheelCount) (hW : wheelCount < U32) :
    ∀ i ≤ spaceOf wheelCount wordLength, ∀ j < wordLength,
      i + j < wheelCount ∧
        0 ≤ alphabetindex (word.getD j 0) ∧
        alphabetindex (word.getD j 0) < 26 := by
  intro i hi j hj
  rw [spaceOf_eq_sub wheelCount wordLength hle hW] at hi
  refine ⟨by omega, ?_, ?_⟩
  all_goals
    have hjl : j < word.length := by omega
    have hmem : word.getD j 0 ∈ word := by
      rw [List.getD_eq_getElem word 0 hjl]
      exact List.getElem_mem hjl
    have hc := hlower _ hmem
    unfold alphabetindex
    omega

/-- Witness for C10: one wheel, word "a"; the single lookup is in bounds. -/
theorem TestWord_accesses_in_bounds_witness :
    0 + 0 < 1 ∧ 0 ≤ alphabetindex ([97].getD 0 0) ∧ alphabetindex ([97].getD 0 0) < 26 :=
  TestWord_accesses_in_bounds [97] 1 1 (by decide) (by decide) (by decide) (by decide)
    0 (by decide) 0 (by decide)

/-- The inner loop of `TestWord` with the wheel store threaded through
explicitly, starting at character position `j` with `rem` positions left:
returns the `match` flag together with the wheel store as the loop leaves
it (the loop body only reads the store). -/
def TestWordInnerSt (word : List Nat) (i : Nat) :
    Nat → Nat → List (List Bool) → Bool × List (List Bool)
  | _, 0, st => (true, st)
  | j, rem + 1, st =>
    if wheelbit (st.getD (i + j) []) (alphabetindex (word.getD j 0)) then
      TestWordInnerSt word i (j + 1) rem st
    else (false, st)

/-- The outer loop of `TestWord` with the wheel store threaded through:
`iters` offsets remain starting at offset `i`, `count` matches so far. -/
def TestWordOuterSt (word : List Nat) (wordLength : Nat) :
    Nat → Nat → Nat → List (List Bool) → Nat × List (List Bool)
  | _, 0, count, st => (count, st)
  | i, iters + 1, count, st =>
    let r := TestWordInnerSt word i 0 wordLength st
    TestWordOuterSt word wordLength (i + 1) iters (if r.1 then count + 1 else count) r.2

/-- Function `TestWord` with the wheel store threaded through as explicit state. -/
def TestWordSt (st : List (List Bool)) (word : List Nat)
    (wordLength wheelCount : Nat) : Nat × List (List Bool) :=
  TestWordOuterSt word wordLength 0 (spaceOf wheelCount wordLength + 1) 0 st

/-- Runs `n` sequential calls of `TestWord` on the same word, each call reading
the wheel store left by the previous one; returns the list of results and
the final store. -/
def TestWordCalls (st : List (List Bool)) (word : List Nat)
    (wordLength wheelCount : Nat) : Nat → List Nat × List (List Bool)
  | 0 => ([], st)
  | n + 1 =>
    let prev := TestWordCalls st word wordLength wheelCount n
    let r := TestWordSt prev.2 word wordLength wheelCount
    (prev.1 ++ [r.1], r.2)

theorem TestWordInnerSt_snd (word : List Nat) (i : Nat) :
    ∀ rem j st, (TestWordInnerSt word i j rem st).2 = st := by
  intro rem
  induction rem with
  | zero => intro j st; rfl
  | succ rem ih =>
    intro j st
    unfold TestWordInnerSt
    by_cases h : wheelbit (st.getD (i + j) []) (alphabetindex (word.getD j 0)) = true
    · rw [if_pos h]; exact ih (j + 1) st
    · rw [if_neg h]

theorem TestWordOuterSt_snd (word : List Nat) (wordLength : Nat) :
    ∀ iters i count st, (TestWordOuterSt word wordLength i iters count st).2 = st := by
  intro iters
  induction iters with
  | zero => intro i count st; rfl
  | succ iters ih =>
    intro i count st
    unfold TestWordOuterSt
    simp only []
    rw [ih]
    exact TestWordInnerSt_snd word i wordLength 0 st

theorem TestWordSt_snd (st : List (List Bool)) (word : List Nat)
    (wordLength wheelCount : Nat) :
    (TestWordSt st word wordLength wheelCount).2 = st :=
  TestWordOuterSt_snd word wordLength _ 0 0 st

theorem TestWordInnerSt_fst (word : List Nat) (i : Nat) (st : List (List Bool)) :
    ∀ rem j, (TestWordInnerSt word i j rem st).1 = true ↔
      ∀ k < rem,
        wheelbit (st.getD (i + (j + k)) []) (alphabetindex (word.getD (j + k) 0)) = true := by
  intro rem
  induction rem with
  | zero => intro j; simp [TestWordInnerSt]
  | succ rem ih =>
    intro j
    unfold TestWordInnerSt
    by_cases h : wheelbit (st.getD (i + j) []) (alphabetindex (word.getD j 0)) = true
    · rw [if_pos h, ih (j + 1)]
      constructor
      · intro hall k hk
        match k with
        | 0 => simpa using h
        | k + 1 =>
          have := hall k (by omega)
          have e1 : j + 1 + k = j + (k + 1) := by omega
          rw [e1] at this
          exact this
      · intro hall k hk
        have := hall (k + 1) (by omega)
        have e1 : j + (k + 1) = j + 1 + k := by omega
        rw [e1] at this
        exact this
    · rw [if_neg h]
      simp only [Bool.false_eq_true, false_iff]
      intro hall
      exact h (by simpa using hall 0 (by omega))

theorem TestWordInnerSt_eq_match (word : List Nat) (wordLength i : Nat)
    (st : List (List Bool)) :
    (TestWordInnerSt word i 0 wordLength st).1 = TestWordMatch st word wordLength i := by
  by_cases h : TestWordMatch st word wordLength i = true
  · rw [h, TestWordInnerSt_fst]
    intro k hk
    have := (TestWordMatch_iff st word wordLength i).mp h k hk
    simpa using this
  · rw [Bool.not_eq_true] at h
    rw [h]
    rw [Bool.eq_false_iff, Ne, TestWordInnerSt_fst]
    intro hall
    rw [Bool.eq_false_iff, Ne, TestWordMatch_iff] at h
    apply h
    intro j hj
    simpa using hall j hj

theorem TestWordOuterSt_fst (word : List Nat) (wordLength : Nat) (st : List (List Bool)) :
    ∀ iters i count, (TestWordOuterSt word wordLength i iters count st).1 =
      count + ((List.range' i iters).filter
        (fun k => TestWordMatch st word wordLength k)).length := by
  intro iters
  induction iters with
  | zero => intro i count; simp [TestWordOuterSt]
  | succ iters ih =>
    intro i count
    unfold TestWordOuterSt
    simp only []
    rw [TestWordInnerSt_snd, ih, TestWordInnerSt_eq_match, List.range']
    by_cases h : TestWordMatch st word wordLength i = true
    · rw [if_pos h]
      simp only [List.filter, h]
      simp only [List.length_cons]
      omega
    · rw [if_neg h]
      rw [Bool.not_eq_true] at h
      simp only [List.filter, h]

theorem TestWordSt_fst (st : List (List Bool)) (word : List Nat)
    (wordLength wheelCount : Nat) :
    (TestWordSt st word wordLength wheelCount).1 = TestWord st word wordLength wheelCount := by
  unfold TestWordSt TestWord
  rw [TestWordOuterSt_fst, List.range_eq_range']
  omega

/-- C7: `TestWord` is pure: threading the wheel store through any number of
sequential calls leaves the store equal to the original wheels, and every
call returns the same value `TestWord wheels word wordLength wheelCount`. -/
theorem TestWord_pure_frame (wheels : List (List Bool)) (word : List Nat)
    (wordLength wheelCount n : Nat) :
    (TestWordCalls wheels word wordLength wheelCount n).2 = wheels ∧
      ∀ r ∈ (TestWordCalls wheels word wordLength wheelCount n).1,
        r = TestWord wheels word wordLength wheelCount := by
  induction n with
  | zero => exact ⟨rfl, by intro r hr; simp [TestWordCalls] at hr⟩
  | succ n ih =>
    unfold TestWordCalls
    simp only []
    rw [ih.1]
    refine ⟨TestWordSt_snd wheels word wordLength wheelCount, ?_⟩
    intro r hr
    rw [List.mem_append] at hr
    rcases hr with hr | hr
    · exact ih.2 r hr
    · rw [List.mem_singleton] at hr
      rw [hr]
      exact TestWordSt_fst wheels word wordLength wheelCount

/-- The message thrown when a dictionary line exceeds `MAXWORDLENGTH`
(`getline` failing). -/
def errWordLength : String := "ERROR: Word in dictionary exceeded maximum length!"

/-- One iteration of the dictionary loop for one word (after a successful
`getline`): `none` when a `continue` skips the word (a non-alphabetic
character, or the word is longer than the lock), otherwise `some matches`
where `matches` is `TestWord` applied to the lowercased word. -/
def processWord (wheels : List (List Bool)) (wheelCount : Nat)
    (word : List Nat) : Option Nat :=
  if !(word.all isalpha) then none
  else if word.length > wheelCount then none
  else some (TestWord wheels (word.map tolower) word.length wheelCount)

/-- The match count a word contributes to the reported total: the
matcher's result when the word reaches it, `0` when it is skipped. -/
def matchCountD (wheels : List (List Bool)) (wheelCount : Nat)
    (word : List Nat) : Nat :=
  (processWord wheels wheelCount word).getD 0

/-- The function `int ProcessDictionary(bool**& wheels, const uint wheelCount, const
uint lettersPerWheel)`, modelled on the dictionary as a list of lines:
returns the printed (lowercased) words in order together with the final
reported total, or the error thrown when a line exceeds `MAXWORDLENGTH`. -/
def ProcessDictionary (wheels : List (List Bool)) (wheelCount : Nat) :
    List (List Nat) → Except String (List (List Nat) × Nat)
  | [] => .ok ([], 0)
  | word :: rest =>
    if word.length > MAXWORDLENGTH then .error errWordLength
    else
      match processWord wheels wheelCount word with
      | none => ProcessDictionary wheels wheelCount rest
      | some m =>
        match ProcessDictionary wheels wheelCount rest with
        | .error e => .error e
        | .ok (printed, count) =>
          if m > 0 then .ok (word.map tolower :: printed, m + count)
          else .ok (printed, count)

/-- C3: the reported total is the sum of the per-word alignment match
counts over the words with positive count, and the printed words are
exactly those words (lowercased), in dictionary order. -/
theorem ProcessDictionary_total_eq_sum (wheels : List (List Bool))
    (wheelCount : Nat) (dict : List (List Nat))
    (h : ∀ w ∈ dict, w.length ≤ MAXWORDLENGTH) :
    ProcessDictionary wheels wheelCount dict =
      .ok ((dict.filter (fun w => 0 < matchCountD wheels wheelCount w)).map
            (List.map tolower),
          ((dict.filter (fun w => 0 < matchCountD wheels wheelCount w)).map
            (matchCountD wheels wheelCount)).sum) := by
  induction dict with
  | nil => rfl
  | cons word rest ih =>
    have hw : ¬ word.length > MAXWORDLENGTH := by
      have := h word (List.mem_cons_self word rest)
      omega
    have hrest : ∀ w ∈ rest, w.length ≤ MAXWORDLENGTH := by
      intro w hwmem
      exact h w (List.mem_cons_of_mem word hwmem)
    simp only [ProcessDictionary]
    rw [if_neg hw]
    rcases hp : processWord wheels wheelCount word with _ | m
    all_goals simp only []
    · have hmc : matchCountD wheels wheelCount word = 0 := by
        unfold matchCountD
        rw [hp]
        rfl
      rw [ih hrest]
      simp only [List.filter_cons, hmc]
      norm_num
    · have hmc : matchCountD wheels wheelCount word = m := by
        unfold matchCountD
        rw [hp]
        rfl
      rw [ih hrest]
      simp only []
      by_cases hm : m > 0
      · rw [if_pos hm]
        simp only [List.filter_cons, hmc]
        rw [if_pos (by simpa using hm)]
        simp only [List.map_cons, List.sum_cons, hmc]
      · rw [if_neg hm]
        simp only [List.filter_cons, hmc]
        rw [if_neg (by simpa using hm)]

/-- A wheel carrying exactly the letters a and b. -/
def wheelAB : List Bool := true :: true :: List.replicate 24 false

/-- Witness for C3, the spec's Scenario A: three wheels each holding a,b
and the dictionary ["ab","abc","ba"]: "ab" and "ba" are printed and the
reported total is 4. -/
theorem ProcessDictionary_total_eq_sum_witness :
    ProcessDictionary [wheelAB, wheelAB, wheelAB] 3 [[97, 98], [97, 98, 99], [98, 97]] =
      .ok ([[97, 98], [98, 97]], 4) :=
  (ProcessDictionary_total_eq_sum [wheelAB, wheelAB, wheelAB] 3
    [[97, 98], [97, 98, 99], [98, 97]] (by decide)).trans (by rfl)

/-- C4: a dictionary word strictly longer than the lock's wheel count is
skipped by the loop without reaching the matcher (`processWord` yields
`none`), contributes 0 matches, and leaves the run's result unchanged. -/
theorem long_word_skipped (wheels : List (List Bool)) (wheelCount : Nat)
    (word : List Nat) (rest : List (List Nat))
    (h : word.length > wheelCount) :
    processWord wheels wheelCount word = none ∧
      matchCountD wheels wheelCount word = 0 ∧
      (word.length ≤ MAXWORDLENGTH →
        ProcessDictionary wheels wheelCount (word :: rest) =
          ProcessDictionary wheels wheelCount rest) := by
  have hp : processWord wheels wheelCount word = none := by
    unfold processWord
    by_cases ha : word.all isalpha = true
    · rw [ha]
      simp only [Bool.not_true, Bool.false_eq_true, if_false]
      rw [if_pos h]
    · rw [Bool.not_eq_true] at ha
      rw [ha]
      rfl
  refine ⟨hp, by unfold matchCountD; rw [hp]; rfl, ?_⟩
  intro hlen
  simp only [ProcessDictionary]
  rw [if_neg (by omega), hp]

/-- Witness for C4: a two-letter word against a one-wheel lock is skipped. -/
theorem long_word_skipped_witness :
    processWord [[true]] 1 [97, 98] = none ∧
      matchCountD [[true]] 1 [97, 98] = 0 ∧
      ([97, 98].length ≤ MAXWORDLENGTH →
        ProcessDictionary [[true]] 1 [[97, 98]] = ProcessDictionary [[true]] 1 []) :=
  long_word_skipped [[true]] 1 [97, 98] [] (by decide)

theorem isalpha_toupper (c : Nat) (h : isalpha c = true) :
    isalpha (toupper c) = true := by
  simp only [isalpha, toupper, Bool.or_eq_true, Bool.and_eq_true,
    decide_eq_true_eq] at h ⊢
  split_ifs with h1
  · simp only [Bool.and_eq_true, decide_eq_true_eq] at h1
    omega
  · simp only [Bool.and_eq_true, decide_eq_true_eq, not_and, not_le] at h1
    omega

theorem tolower_toupper (c : Nat) (h : isalpha c = true) :
    tolower (toupper c) = tolower c := by
  simp only [isalpha, Bool.or_eq_true, Bool.and_eq_true, decide_eq_true_eq] at h
  simp only [tolower, toupper]
  split_ifs with h1 h2 h3 h4 h5 <;>
    simp only [Bool.and_eq_true, decide_eq_true_eq, not_and, not_le] at * <;>
    omega

/-- C6: matching is case-insensitive: for an alphabetic word, the
dictionary loop computes the same outcome (the same match count) for the
word and for its uppercased form, because both are lowercased before the
membership tests. -/
theorem match_case_insensitive (wheels : List (List Bool)) (wheelCount : Nat)
    (word : List Nat) (halpha : word.all isalpha = true) :
    processWord wheels wheelCount (word.map toupper) =
        processWord wheels wheelCount word ∧
      matchCountD wheels wheelCount (word.map toupper) =
        matchCountD wheels wheelCount word := by
  have halpha2 : (word.map toupper).all isalpha = true := by
    rw [List.all_eq_true] at halpha ⊢
    intro c hc
    rw [List.mem_map] at hc
    obtain ⟨d, hd, rfl⟩ := hc
    exact isalpha_toupper d (halpha d hd)
  have hmap : (word.map toupper).map tolower = word.map tolower := by
    rw [List.map_map]
    apply List.map_congr_left
    intro c hc
    exact tolower_toupper c (by rw [List.all_eq_true] at halpha; exact halpha c hc)
  have hfst : processWord wheels wheelCount (word.map toupper) =
      processWord wheels wheelCount word := by
    unfold processWord
    rw [halpha, halpha2, hmap, List.length_map]
  exact ⟨hfst, by unfold matchCountD; rw [hfst]⟩

/-- Witness for C6: the word "ab" and its uppercase "AB" give the same
result against a one-wheel lock. -/
theorem match_case_insensitive_witness :
    processWord [[true]] 1 ([97, 98].map toupper) = processWord [[true]] 1 [97, 98] ∧
      matchCountD [[true]] 1 ([97, 98].map toupper) = matchCountD [[true]] 1 [97, 98] :=
  match_case_insensitive [[true]] 1 [97, 98] (by decide)

/-- A wheel carrying exactly the letter a. -/
def wheelA : List Bool := true :: List.replicate 25 false

/-- C2 fails on the code: with a one-wheel lock holding the letter a, the
empty word (a blank dictionary line) is not rejected upstream: the loop's
guards let it through to `TestWord` (`processWord` returns `some 2`, the
vacuous match at both offsets of `space = wheelCount - 0`), the empty word
is printed, and it contributes `wheelCount + 1 = 2` to the total. -/
theorem emptyWord_reaches_matcher :
    processWord [wheelA] 1 [] = some 2 ∧
      matchCountD [wheelA] 1 [] = 2 ∧
      ProcessDictionary [wheelA] 1 [[]] = .ok ([[]], 2) := by
  refine ⟨by rfl, by rfl, by rfl⟩

-- ReadWheelFile: parsing and validation of wheels.txt.

/-- Thrown when the wheel count parses to 0 (a failed `>>` parse also
leaves the value 0). -/
def errWheelCount : String :=
  "ERROR: Invalid value for wheel count in wheels.txt. Expecting number greater than 0."

/-- Thrown when the letters-per-wheel count parses to 0. -/
def errLettersPerWheel : String :=
  "ERROR: Invalid value for letters per wheel in wheels.txt. Expecting number greater than 0."

/-- Thrown when `getline` fails, i.e. a wheel line holds more characters
than declared (or the input has run out of lines). -/
def errTooManyLetters : String := "ERROR: Wheel contained too many letters."

/-- Thrown when the buffer holds the terminator before `lettersPerWheel`
characters were seen. -/
def errInsufficientLetters : String := "ERROR: Wheel contained insufficient letters."

/-- Thrown when a wheel character is neither the terminator nor
alphabetic. -/
def errNonAlphabetical : String :=
  "ERROR: Non-alphabetical character found in combination. Ensure only characters a-z or A-Z are used."

/-- The allocation `new bool[ALPHABETLENGTH]{ false }`: a wheel with no letters yet. -/
def emptyWheel : List Bool := List.replicate ALPHABETLENGTH false

/-- The write `wheels[i][idx] = true` for an `int` index (out of bounds the store is
left unchanged; the construction only ever uses indices 0..25). -/
def setWheelBit (wheel : List Bool) (idx : Int) : List Bool :=
  if 0 ≤ idx then wheel.set idx.toNat true else wheel

/-- The inner loop of `ReadWheelFile` over one wheel's buffer, at position
`j` with `rem` of the declared `lettersPerWheel` positions left; reading
the buffer beyond the line's characters yields the terminator byte 0. -/
def fillWheel (line : List Nat) : Nat → Nat → List Bool → Except String (List Bool)
  | 0, _, wheel => .ok wheel
  | rem + 1, j, wheel =>
    if isalpha (line.getD j 0) then
      fillWheel line rem (j + 1) (setWheelBit wheel (alphabetindex (tolower (line.getD j 0))))
    else if line.getD j 0 = 0 then .error errInsufficientLetters
    else .error errNonAlphabetical

/-- The outer loop of `ReadWheelFile`: one `getline` per wheel; a line
longer than `lettersPerWheel` makes `getline` fail ("too many letters"),
as does running out of input lines. -/
def readWheels (lettersPerWheel : Nat) : Nat → List (List Nat) → Except String (List (List Bool))
  | 0, _ => .ok []
  | _ + 1, [] => .error errTooManyLetters
  | n + 1, line :: rest =>
    if line.length > lettersPerWheel then .error errTooManyLetters
    else
      match fillWheel line lettersPerWheel 0 emptyWheel with
      | .error e => .error e
      | .ok wheel =>
        match readWheels lettersPerWheel n rest with
        | .error e => .error e
        | .ok ws => .ok (wheel :: ws)

/-- The function `void ReadWheelFile(bool**& wheels, char*& letters, uint& wheelCount,
uint& lettersPerWheel)`, modelled on the parsed wheel count, the parsed
letters-per-wheel and the wheel lines of wheels.txt. -/
def ReadWheelFile (wheelCount lettersPerWheel : Nat) (lines : List (List Nat)) :
    Except String (List (List Bool)) :=
  if wheelCount = 0 then .error errWheelCount
  else if lettersPerWheel = 0 then .error errLettersPerWheel
  else readWheels lettersPerWheel wheelCount lines

theorem tolower_alpha_range (c : Nat) (h : isalpha c = true) :
    97 ≤ tolower c ∧ tolower c ≤ 122 := by
  simp only [isalpha, Bool.or_eq_true, Bool.and_eq_true, decide_eq_true_eq] at h
  simp only [tolower]
  split_ifs with h1 <;>
    simp only [Bool.and_eq_true, decide_eq_true_eq, not_and, not_le] at h1 <;>
    omega

theorem getD_set_true_iff (l : List Bool) (n k : Nat) (hn : n < l.length) :
    ((l.set n true).getD k false = true ↔ (k = n ∨ l.getD k false = true)) := by
  by_cases hk : k < l.length
  · rw [List.getD_eq_getElem _ _ (by simpa using hk), List.getElem_set,
      List.getD_eq_getElem _ _ hk]
    by_cases he : n = k
    · subst he
      simp
    · rw [if_neg he]
      constructor
      · intro hl; right; exact hl
      · intro hl
        rcases hl with hl | hl
        · exact absurd hl.symm he
        · exact hl
  · rw [List.getD_eq_default _ _ (by simpa using (by omega : l.length ≤ k)),
      List.getD_eq_default _ _ (by omega)]
    constructor
    · intro hf; exact absurd hf (by simp)
    · intro hl
      rcases hl with hl | hl
      · omega
      · exact absurd hl (by simp)

theorem fillWheel_ok_bits (line : List Nat) : ∀ (rem j : Nat) (wheel : List Bool),
    wheel.length = 26 →
    (∀ t < rem, isalpha (line.getD (j + t) 0) = true) →
    ∃ w, fillWheel line rem j wheel = .ok w ∧ w.length = 26 ∧
      ∀ k : Nat, (w.getD k false = true ↔
        (wheel.getD k false = true ∨
          ∃ t < rem, alphabetindex (tolower (line.getD (j + t) 0)) = (k : Int))) := by
  intro rem
  induction rem with
  | zero =>
    intro j wheel hwl _
    refine ⟨wheel, rfl, hwl, ?_⟩
    intro k
    constructor
    · intro hk; exact Or.inl hk
    · intro hk
      rcases hk with hk | ⟨t, ht, _⟩
      · exact hk
      · omega
  | succ rem ih =>
    intro j wheel hwl halpha
    have hc : isalpha (line.getD (j + 0) 0) = true := halpha 0 (by omega)
    rw [Nat.add_zero] at hc
    have hrange := tolower_alpha_range _ hc
    have hidx : 0 ≤ alphabetindex (tolower (line.getD j 0)) ∧
        (alphabetindex (tolower (line.getD j 0))).toNat < 26 := by
      unfold alphabetindex
      omega
    unfold fillWheel
    rw [if_pos hc]
    have hset : (setWheelBit wheel (alphabetindex (tolower (line.getD j 0)))).length = 26 := by
      unfold setWheelBit
      rw [if_pos hidx.1, List.length_set, hwl]
    obtain ⟨w, hw, hwlen, hbits⟩ := ih (j + 1)
      (setWheelBit wheel (alphabetindex (tolower (line.getD j 0)))) hset
      (by
        intro t ht
        have := halpha (t + 1) (by omega)
        have e1 : j + (t + 1) = j + 1 + t := by omega
        rw [e1] at this
        exact this)
    refine ⟨w, hw, hwlen, ?_⟩
    intro k
    rw [hbits k]
    unfold setWheelBit
    rw [if_pos hidx.1]
    rw [getD_set_true_iff wheel _ k (by omega)]
    constructor
    · intro hk
      rcases hk with (hk | hk) | ⟨t, ht, hk⟩
      · right
        refine ⟨0, by omega, ?_⟩
        rw [Nat.add_zero]
        subst hk
        omega
      · exact Or.inl hk
      · right
        refine ⟨t + 1, by omega, ?_⟩
        have e1 : j + (t + 1) = j + 1 + t := by omega
        rw [e1]
        exact hk
    · intro hk
      rcases hk with hk | ⟨t, ht, hk⟩
      · exact Or.inl (Or.inr hk)
      · match t with
        | 0 =>
          rw [Nat.add_zero] at hk
          left
          left
          omega
        | t + 1 =>
          right
          refine ⟨t, by omega, ?_⟩
          have e1 : j + 1 + t = j + (t + 1) := by omega
          rw [e1]
          exact hk

theorem readWheels_ok (lettersPerWheel : Nat) :
    ∀ (n : Nat) (lines : List (List Nat)),
    n ≤ lines.length →
    (∀ l ∈ lines, l.length = lettersPerWheel ∧ l.all isalpha = true) →
    ∃ ws, readWheels lettersPerWheel n lines = .ok ws ∧ ws.length = n ∧
      ∀ i < n, (ws.getD i []).length = 26 ∧
        ∀ k < 26, ((ws.getD i []).getD k false = true ↔
          ∃ c ∈ lines.getD i [], alphabetindex (tolower c) = (k : Int)) := by
  intro n
  induction n with
  | zero =>
    intro lines _ _
    exact ⟨[], rfl, rfl, by omega⟩
  | succ n ih =>
    intro lines hlen hprops
    match lines with
    | [] => simp at hlen
    | line :: rest =>
      have hline := hprops line (List.mem_cons_self line rest)
      have halphaline : ∀ t < lettersPerWheel, isalpha (line.getD (0 + t) 0) = true := by
        intro t ht
        rw [Nat.zero_add]
        have htl : t < line.length := by omega
        rw [List.getD_eq_getElem line 0 htl]
        rw [List.all_eq_true] at hline
        exact hline.2 _ (List.getElem_mem htl)
      obtain ⟨w, hw, hwlen, hbits⟩ :=
        fillWheel_ok_bits line lettersPerWheel 0 emptyWheel (by simp [emptyWheel, ALPHABETLENGTH])
          halphaline
      obtain ⟨ws, hws, hwslen, hwsbits⟩ := ih rest (by simpa using hlen)
        (fun l hl => hprops l (List.mem_cons_of_mem line hl))
      refine ⟨w :: ws, ?_, by simp [hwslen], ?_⟩
      · unfold readWheels
        rw [if_neg (by omega), hw, hws]
      · intro i hi
        match i with
        | 0 =>
          simp only [List.getD_cons_zero]
          refine ⟨hwlen, ?_⟩
          intro k hk
          rw [hbits k]
          have hempty : emptyWheel.getD k false = false := by
            show (List.replicate 26 false).getD k false = false
            rcases lt_or_ge k 26 with hk2 | hk2
            · rw [List.getD_eq_getElem _ _ (by simpa using hk2)]
              exact List.getElem_replicate _ _
            · exact List.getD_eq_default _ _ (by simpa using hk2)
          rw [hempty]
          constructor
          · intro hor
            rcases hor with hor | ⟨t, ht, hor⟩
            · exact absurd hor (by simp)
            · have htl : t < line.length := by omega
              refine ⟨line.getD (0 + t) 0, ?_, hor⟩
              rw [Nat.zero_add, List.getD_eq_getElem line 0 htl]
              exact List.getElem_mem htl
          · intro ⟨c, hc, hceq⟩
            obtain ⟨t, htl, hteq⟩ := List.mem_iff_getElem.mp hc
            right
            refine ⟨t, by omega, ?_⟩
            rw [Nat.zero_add, List.getD_eq_getElem line 0 htl, hteq]
            exact hceq
        | i + 1 =>
          simp only [List.getD_cons_succ]
          exact hwsbits i (by omega)

/-- C8: given a positive wheel count, a positive letters-per-wheel and one
line of exactly that many alphabetic characters per wheel, `ReadWheelFile`
succeeds and builds one 26-bit membership set per wheel whose bit
`alphabetindex (tolower letter)` is true exactly for the letters supplied
on that wheel; duplicate letters on a wheel are idempotent (the
characterization depends only on which letters occur in the line). -/
theorem ReadWheelFile_builds_membership (wheelCount lettersPerWheel : Nat)
    (lines : List (List Nat))
    (hW : 0 < wheelCount) (hP : 0 < lettersPerWheel)
    (hcount : wheelCount ≤ lines.length)
    (hlines : ∀ l ∈ lines, l.length = lettersPerWheel ∧ l.all isalpha = true) :
    ∃ wheels, ReadWheelFile wheelCount lettersPerWheel lines = .ok wheels ∧
      wheels.length = wheelCount ∧
      ∀ i < wheelCount, (wheels.getD i []).length = 26 ∧
        ∀ k < 26, ((wheels.getD i []).getD k false = true ↔
          ∃ c ∈ lines.getD i [], alphabetindex (tolower c) = (k : Int)) := by
  obtain ⟨ws, hws, hlen, hbits⟩ := readWheels_ok lettersPerWheel wheelCount lines hcount hlines
  refine ⟨ws, ?_, hlen, hbits⟩
  unfold ReadWheelFile
  rw [if_neg (by omega), if_neg (by omega)]
  exact hws

/-- Witness for C8: one wheel declared with two letters, both the letter a
(bytes 97,97): construction succeeds and only bit 0 of the wheel is set —
the duplicate is idempotent. -/
theorem ReadWheelFile_builds_membership_witness :
    (∃ wheels, ReadWheelFile 1 2 [[97, 97]] = .ok wheels ∧
      wheels.length = 1 ∧
      ∀ i < 1, (wheels.getD i []).length = 26 ∧
        ∀ k < 26, ((wheels.getD i []).getD k false = true ↔
          ∃ c ∈ [[97, 97]].getD i [], alphabetindex (tolower c) = (k : Int))) ∧
      ReadWheelFile 1 2 [[97, 97]] = .ok [true :: List.replicate 25 false] :=
  ⟨ReadWheelFile_builds_membership 1 2 [[97, 97]] (by decide) (by decide)
    (by decide) (by decide), by rfl⟩

theorem fillWheel_first_bad (line : List Nat) :
    ∀ (rem j : Nat) (wheel : List Bool) (f : Nat),
    j ≤ f → f < j + rem →
    (∀ t, j ≤ t → t < f → isalpha (line.getD t 0) = true) →
    isalpha (line.getD f 0) = false →
    fillWheel line rem j wheel =
      (if line.getD f 0 = 0 then Except.error errInsufficientLetters
        else Except.error errNonAlphabetical) := by
  intro rem
  induction rem with
  | zero =>
    intro j wheel f hjf hf _ _
    omega
  | succ rem ih =>
    intro j wheel f hjf hf hgood hbad
    unfold fillWheel
    by_cases hej : j = f
    · subst hej
      rw [if_neg (by rw [hbad]; simp)]
    · have hja : isalpha (line.getD j 0) = true := hgood j (by omega) (by omega)
      rw [if_pos hja]
      exact ih (j + 1) _ f (by omega) (by omega)
        (fun t ht1 ht2 => hgood t (by omega) ht2) hbad

/-- C9: lock construction fails with a distinct reported error in each
case: zero wheel count; zero letters-per-wheel; a wheel line of alphabetic
characters shorter than declared ("insufficient letters"); a wheel line
containing a non-alphabetic character ("invalid character"); a wheel line
longer than declared ("too many letters") — and the five messages are
pairwise distinct. -/
theorem ReadWheelFile_error_cases :
    (∀ (lettersPerWheel : Nat) (lines : List (List Nat)),
      ReadWheelFile 0 lettersPerWheel lines = .error errWheelCount) ∧
    (∀ (wheelCount : Nat) (lines : List (List Nat)), 0 < wheelCount →
      ReadWheelFile wheelCount 0 lines = .error errLettersPerWheel) ∧
    (∀ (wheelCount lettersPerWheel : Nat) (line : List Nat) (rest : List (List Nat)),
      0 < wheelCount → line.length < lettersPerWheel → line.all isalpha = true →
      ReadWheelFile wheelCount lettersPerWheel (line :: rest) =
        .error errInsufficientLetters) ∧
    (∀ (wheelCount lettersPerWheel : Nat) (line : List Nat) (rest : List (List Nat))
      (f : Nat),
      0 < wheelCount → line.length ≤ lettersPerWheel → f < line.length →
      (∀ t < f, isalpha (line.getD t 0) = true) →
      isalpha (line.getD f 0) = false → line.getD f 0 ≠ 0 →
      ReadWheelFile wheelCount lettersPerWheel (line :: rest) =
        .error errNonAlphabetical) ∧
    (∀ (wheelCount lettersPerWheel : Nat) (line : List Nat) (rest : List (List Nat)),
      0 < wheelCount → 0 < lettersPerWheel → line.length > lettersPerWheel →
      ReadWheelFile wheelCount lettersPerWheel (line :: rest) =
        .error errTooManyLetters) ∧
    (errWheelCount ≠ errLettersPerWheel ∧ errWheelCount ≠ errInsufficientLetters ∧
      errWheelCount ≠ errNonAlphabetical ∧ errWheelCount ≠ errTooManyLetters ∧
      errLettersPerWheel ≠ errInsufficientLetters ∧
      errLettersPerWheel ≠ errNonAlphabetical ∧
      errLettersPerWheel ≠ errTooManyLetters ∧
      errInsufficientLetters ≠ errNonAlphabetical ∧
      errInsufficientLetters ≠ errTooManyLetters ∧
      errNonAlphabetical ≠ errTooManyLetters) := by
  refine ⟨?_, ?_, ?_, ?_, ?_, by decide⟩
  · intro lettersPerWheel lines
    unfold ReadWheelFile
    rw [if_pos rfl]
  · intro wheelCount lines hW
    unfold ReadWheelFile
    rw [if_neg (by omega), if_pos rfl]
  · intro wheelCount lettersPerWheel line rest hW hshort halpha
    have hP : 0 < lettersPerWheel := by omega
    unfold ReadWheelFile
    rw [if_neg (by omega), if_neg (by omega)]
    obtain ⟨m, rfl⟩ : ∃ m, wheelCount = m + 1 := ⟨wheelCount - 1, by omega⟩
    unfold readWheels
    rw [if_neg (by omega)]
    have hfill := fillWheel_first_bad line lettersPerWheel 0 emptyWheel line.length
      (by omega) (by omega)
      (by
        intro t _ ht2
        rw [List.getD_eq_getElem line 0 ht2]
        rw [List.all_eq_true] at halpha
        exact halpha _ (List.getElem_mem ht2))
      (by rw [List.getD_eq_default _ _ (le_refl _)]; decide)
    rw [List.getD_eq_default _ _ (le_refl _)] at hfill
    rw [if_pos rfl] at hfill
    rw [hfill]
  · intro wheelCount lettersPerWheel line rest f hW hlinelen hf hgood hbad hnz
    have hP : 0 < lettersPerWheel := by omega
    unfold ReadWheelFile
    rw [if_neg (by omega), if_neg (by omega)]
    obtain ⟨m, rfl⟩ : ∃ m, wheelCount = m + 1 := ⟨wheelCount - 1, by omega⟩
    unfold readWheels
    rw [if_neg (by omega)]
    have hfill := fillWheel_first_bad line lettersPerWheel 0 emptyWheel f
      (by omega) (by omega) (fun t _ ht2 => hgood t ht2) hbad
    rw [if_neg hnz] at hfill
    rw [hfill]
  · intro wheelCount lettersPerWheel line rest hW hP hlong
    unfold ReadWheelFile
    rw [if_neg (by omega), if_neg (by omega)]
    obtain ⟨m, rfl⟩ : ∃ m, wheelCount = m + 1 := ⟨wheelCount - 1, by omega⟩
    unfold readWheels
    rw [if_pos hlong]

/-- Witness for C9: each error case at a concrete input — wheel count 0;
letters-per-wheel 0; the spec's Scenario C (line "ab" with 3 letters
declared); line "a1" (digit on a wheel); line "ab" with 1 letter
declared. -/
theorem ReadWheelFile_error_cases_witness :
    ReadWheelFile 0 1 [] = .error errWheelCount ∧
      ReadWheelFile 1 0 [] = .error errLettersPerWheel ∧
      ReadWheelFile 1 3 [[97, 98]] = .error errInsufficientLetters ∧
      ReadWheelFile 1 2 [[97, 49]] = .error errNonAlphabetical ∧
      ReadWheelFile 1 1 [[97, 98]] = .error errTooManyLetters :=
  ⟨ReadWheelFile_error_cases.1 1 [],
    ReadWheelFile_error_cases.2.1 1 [] (by decide),
    ReadWheelFile_error_cases.2.2.1 1 3 [97, 98] [] (by decide) (by decide) (by decide),
    ReadWheelFile_error_cases.2.2.2.1 1 2 [97, 49] [] 1 (by decide) (by decide)
      (by decide) (by decide) (by decide) (by decide),
    ReadWheelFile_error_cases.2.2.2.2.1 1 1 [97, 98] [] (by decide) (by decide)
      (by decide)⟩
